import Mathlib

/-!
Verification of the `scope` commit-mining pipeline (src/index.py) against its
natural-language specification.  The Python source is shallowly embedded:
commits, diffs and database tables become Lean structures and lists, the
stateful mining loop becomes explicit state passing, and the fragment of
Python regular expressions actually produced by the keyword compiler
(`re.escape` output with `*` expanded to `.*`, wrapped in word boundaries
and searched case-insensitively) is given an executable matcher.
-/

set_option maxRecDepth 4000

/-- A word character in the sense of the regex `\b` assertion: ASCII
letter, digit or underscore (the keyword patterns are ASCII). -/
def isWordChar (c : Char) : Bool :=
  (('a' ≤ c && c ≤ 'z') || ('A' ≤ c && c ≤ 'Z') || ('0' ≤ c && c ≤ '9') || c = '_')

/-- ASCII lowercasing of one character, as `Char.toLower` / Python `str.lower`
on ASCII input. -/
def lowerChar (c : Char) : Char :=
  if 'A' ≤ c && c ≤ 'Z' then Char.ofNat (c.toNat + 32) else c

/-- Python `str.lower`, on the character list of a string. -/
def lowerList (s : List Char) : List Char :=
  s.map lowerChar

/-- Python `needle in hay` (contiguous substring test) on character lists. -/
def listContains (hay needle : List Char) : Bool :=
  (List.range (hay.length + 1)).any fun i => needle.isPrefixOf (hay.drop i)

/-- Python `keyword in msg` on strings. -/
def strContains (hay needle : String) : Bool :=
  listContains hay.data needle.data

/-- Python `s.startswith(pre)` on strings. -/
def strStartsWith (s pre : String) : Bool :=
  pre.data.isPrefixOf s.data

/-- An ASCII whitespace character as stripped by Python `str.strip()`. -/
def isPySpace (c : Char) : Bool :=
  c ∈ [' ', '\t', '\n', '\r', Char.ofNat 11, Char.ofNat 12]

/-- Python `str.strip()` on character lists: drop whitespace from both ends. -/
def pyStrip (s : List Char) : List Char :=
  ((s.dropWhile isPySpace).reverse.dropWhile isPySpace).reverse

/-- Python `str.splitlines` on character lists: split at `\r\n`, `\n` or `\r`,
with no trailing empty line. -/
def splitlinesAux : List Char → List Char → List (List Char)
  | [], [] => []
  | [], acc => [acc.reverse]
  | '\r' :: '\n' :: rest, acc => acc.reverse :: splitlinesAux rest []
  | '\n' :: rest, acc => acc.reverse :: splitlinesAux rest []
  | '\r' :: rest, acc => acc.reverse :: splitlinesAux rest []
  | c :: rest, acc => splitlinesAux rest (c :: acc)

/-- Python `str.splitlines` on strings. -/
def splitlines (s : String) : List String :=
  (splitlinesAux s.data []).map List.asString

/-- The characters Python 3's `re.escape` prefixes with a backslash:
the bytes of `'()[]\x7b\x7d?*+-|^$\\.&~# \t\n\r\v\f'`. -/
def isReSpecial (c : Char) : Bool :=
  c ∈ ['(', ')', '[', ']', '?', '*', '+', '-', '|', '^', '$', '\\', '.', '&',
       '~', '#', ' ', '\t', '\n', '\r', Char.ofNat 11, Char.ofNat 12,
       Char.ofNat 123, Char.ofNat 125]

/-- Python `re.escape` on character lists: backslash every special character. -/
def reEscape : List Char → List Char
  | [] => []
  | c :: rest => if isReSpecial c then '\\' :: c :: reEscape rest
                 else c :: reEscape rest

/-- Python `s.replace("\\*", ".*")` on character lists: replace each
non-overlapping occurrence of backslash-star, scanning left to right. -/
def replaceEscStar : List Char → List Char
  | '\\' :: '*' :: rest => '.' :: '*' :: replaceEscStar rest
  | c :: rest => c :: replaceEscStar rest
  | [] => []

/-- The keyword compilation step of `read_keywords_from_file` (index.py:84):
`re.escape(keyword).replace(r'\*', '.*')`. -/
def compileKeyword (keyword : String) : String :=
  (replaceEscStar (reEscape keyword.data)).asString

/-- Function `read_keywords_from_file` (index.py:76-91) applied to the list of lines
of the keyword file: strip each line, drop blank and `#`-prefixed lines,
and compile the rest in order. -/
def read_keywords_from_file (lines : List String) : List String :=
  lines.foldr
    (fun line acc =>
      let keyword := (pyStrip line.data).asString
      if keyword ≠ "" && !strStartsWith keyword "#" then compileKeyword keyword :: acc
      else acc)
    []

/-- One token of a compiled keyword pattern: a literal character, or the
two-character wildcard `.*` produced from `*`. -/
inductive PatTok where
  | lit (c : Char) : PatTok
  | wild : PatTok
deriving DecidableEq, Repr

/-- Parse a compiled keyword (the image of `compileKeyword`) back into
tokens: `\c` is the literal `c`, `.*` is the wildcard, any other character
is itself a literal. -/
def parsePat : List Char → List PatTok
  | '\\' :: c :: rest => PatTok.lit c :: parsePat rest
  | '.' :: '*' :: rest => PatTok.wild :: parsePat rest
  | c :: rest => PatTok.lit c :: parsePat rest
  | [] => []

/-- Token-list matching against an exact span of text:
a literal matches one character case-insensitively (`re.IGNORECASE`),
the wildcard `.*` matches any run of non-newline characters. -/
def toksMatch : List PatTok → List Char → Bool
  | [], text => text.isEmpty
  | PatTok.lit c :: ts, d :: ds => lowerChar c = lowerChar d && toksMatch ts ds
  | PatTok.lit _ :: _, [] => false
  | PatTok.wild :: ts, ds =>
      (List.range (ds.length + 1)).any fun n =>
        ((ds.take n).all fun c => c ≠ '\n') && toksMatch ts (ds.drop n)

/-- Whether the character at position `i` of `text` is a word character
(positions outside the text count as non-word). -/
def wordAt (text : List Char) (i : Nat) : Bool :=
  match text.get? i with
  | some c => isWordChar c
  | none => false

/-- The `\b` assertion of Python regexes at position `p` of `text`:
exactly one side of the position holds a word character. -/
def wordBoundary (text : List Char) (p : Nat) : Bool :=
  (decide (0 < p) && wordAt text (p - 1)) != wordAt text p

/-- `re.search(rf"\b{keyword}\b", line, re.IGNORECASE) is not None`
(index.py:276) for a compiled keyword: some span of the line sits between
two word boundaries and is matched by the keyword tokens. -/
def reSearchWB (keyword : String) (line : String) : Bool :=
  let toks := parsePat keyword.data
  let text := line.data
  (List.range (text.length + 1)).any fun i =>
    (List.range (text.length + 1 - i)).any fun m =>
      wordBoundary text i && wordBoundary text (i + m) &&
        toksMatch toks ((text.drop i).take m)

/-- The fixed category table of `classify_commit_advanced` (index.py:194-199),
in Python dict insertion order. -/
def categories : List (String × List String) :=
  [("Bug Fixing", ["fix", "bug", "error", "issue", "crash", "problem", "fatal", "defect", "patch"]),
   ("New Feature", ["add", "feature", "implement", "new", "create", "introduce", "support"]),
   ("Enhancement", ["enhance", "improve", "optimize", "update", "upgrade", "performance", "boost", "refine"]),
   ("Refactoring", ["refactor", "clean", "restructure", "reorganize", "rewrite", "simplify", "redesign"])]

/-- Function `classify_commit_advanced` (index.py:191-202): lowercase the message and
return the first category one of whose keywords occurs as a substring,
or `Unknown` when none does. -/
def classify_commit_advanced (commit_msg : String) : String :=
  let msg := (lowerList commit_msg.data).asString
  match categories.find? (fun p => p.2.any fun keyword => strContains msg keyword) with
  | some p => p.1
  | none => "Unknown"

/-- Strip leading and trailing `/` characters (Python `path.strip('/')`). -/
def stripSlashes (s : List Char) : List Char :=
  ((s.dropWhile fun c => c = '/').reverse.dropWhile fun c => c = '/').reverse

/-- Locate a `://` separator and return what follows the authority part
(everything from the first `/` after it), or `none` when no separator
occurs. -/
def dropSchemeAuth : List Char → Option (List Char)
  | ':' :: '/' :: '/' :: rest => some (rest.dropWhile fun c => c ≠ '/')
  | _ :: rest => dropSchemeAuth rest
  | [] => none

/-- The path component of `urlparse(url)`: everything after the
`scheme://netloc` part when a `://` separator is present, the whole
string otherwise (catalog URLs carry no query or fragment). -/
def urlPath (url : String) : String :=
  match dropSchemeAuth url.data with
  | some p => p.asString
  | none => url

/-- Python `path.split('/')` on character lists: the (non-empty) list of
segments between `/` separators. -/
def splitOnSlash : List Char → List (List Char)
  | [] => [[]]
  | c :: rest =>
    let r := splitOnSlash rest
    if c = '/' then [] :: r
    else
      match r with
      | h :: t => (c :: h) :: t
      | [] => [[c]]

/-- Python `s.replace('.git', '')` on character lists: delete each
non-overlapping occurrence of `.git`, scanning left to right. -/
def stripGit : List Char → List Char
  | '.' :: 'g' :: 'i' :: 't' :: rest => stripGit rest
  | c :: rest => c :: stripGit rest
  | [] => []

/-- Function `get_repo_name` (index.py:104-107): last segment of the URL path with
every occurrence of `.git` removed. -/
def get_repo_name (url : String) : String :=
  let path := stripSlashes (urlPath url).data
  (stripGit ((splitOnSlash path).getLastD [])).asString

/-- A modified file of one commit: its name and unified diff text. -/
structure ModifiedFile where
  filename : String
  diff : String
deriving Repr, DecidableEq

/-- A commit as the pipeline consumes it from pydriller traversal. -/
structure Commit where
  hash : String
  committer_date : String
  author_name : String
  msg : String
  modified_files : List ModifiedFile
  project_path : String
deriving Repr, DecidableEq

/-- The in-memory match record built by `process_modified_files`
(index.py:262-270).  `affected_files` is a Python list (order and
duplicates preserved); `found_keywords` is a Python set, modelled as a
duplicate-free list in insertion order. -/
structure MatchRecord where
  project_name : String
  commit_hash : String
  commit_timestamp : String
  author : String
  affected_files : List String
  found_keywords : List String
  commit_type : String
deriving Repr, DecidableEq

/-- Python `set.add` on the duplicate-free-list model of a set. -/
def insertKeyword (s : List String) (kw : String) : List String :=
  if kw ∈ s then s else s ++ [kw]

/-- The body of the line loop of `process_modified_files` (index.py:273-280):
on an added/removed line, the first keyword whose word-bounded,
case-insensitive search hits the line (the `break` makes it the first). -/
def lineHit (keywords : List String) (line : String) : Option String :=
  if strStartsWith line "+" || strStartsWith line "-" then
    keywords.find? fun keyword => reSearchWB keyword line
  else none

/-- One line's effect on the accumulating record (index.py:273-280). -/
def scanLineStep (keywords : List String) (file : ModifiedFile)
    (r : MatchRecord) (line : String) : MatchRecord :=
  match lineHit keywords line with
  | some keyword =>
      { r with affected_files := r.affected_files ++ [file.filename],
               found_keywords := insertKeyword r.found_keywords keyword }
  | none => r

/-- The record initializer of `process_modified_files` (index.py:262-270). -/
def initRecord (commit : Commit) : MatchRecord :=
  { project_name := get_repo_name commit.project_path,
    commit_hash := commit.hash,
    commit_timestamp := commit.committer_date,
    author := commit.author_name,
    affected_files := [],
    found_keywords := [],
    commit_type := classify_commit_advanced commit.msg }

/-- The file/line scanning loop of `process_modified_files`
(index.py:272-280). -/
def scanAll (keywords : List String) (files : List ModifiedFile) (r : MatchRecord) : MatchRecord :=
  files.foldl (fun r file => (splitlines file.diff).foldl (scanLineStep keywords file) r) r

/-- Function `process_modified_files` (index.py:261-285): scan every line of every
modified file's diff, and return the record only when `affected_files`
is non-empty. -/
def process_modified_files (keywords : List String) (files : List ModifiedFile)
    (commit : Commit) : Option MatchRecord :=
  let result := scanAll keywords files (initRecord commit)
  if result.affected_files ≠ [] then some result else none

/-- Constant `CHUNK_SIZE` (index.py:16). -/
def CHUNK_SIZE : Nat := 200

/-- The loop of `commit_generator` (index.py:174-186), with the chunk size
as a parameter: while the resume hash is unfound, compare-and-skip;
once found, buffer commits and flush each full chunk, flushing the
remainder at the end. -/
def genAux (chunk_size : Nat) (last_commit : Option String) :
    List Commit → Bool → List Commit → List Commit
  | [], _, chunk => chunk
  | c :: rest, found, chunk =>
    if found then
      let chunk2 := chunk ++ [c]
      if chunk2.length = chunk_size then chunk2 ++ genAux chunk_size last_commit rest found []
      else genAux chunk_size last_commit rest found chunk2
    else if some c.hash = last_commit then genAux chunk_size last_commit rest true chunk
    else genAux chunk_size last_commit rest false chunk

/-- Function `commit_generator` (index.py:169-186) with an explicit chunk size:
the full sequence of commits it yields, in order. -/
def commit_generator_sized (chunk_size : Nat) (commits : List Commit)
    (last_commit : Option String) : List Commit :=
  genAux chunk_size last_commit commits last_commit.isNone []

/-- Function `commit_generator` at the source's chunk size of 200. -/
def commit_generator (commits : List Commit) (last_commit : Option String) : List Commit :=
  commit_generator_sized CHUNK_SIZE commits last_commit

/-- One row of the `checkpoint` table (index.py:39-46). -/
structure CheckpointRow where
  repo_name : String
  last_commit : String
  total_time : Int
deriving Repr, DecidableEq

/-- Function `save_checkpoint` (index.py:114-142) as a function on the durable
checkpoint table.  When a row for the repository exists, the retry loop
executes the UPDATE on the original connection's cursor, but line 125 has
rebound `conn` to a fresh connection, so the final `conn.commit()`
(line 141) commits that fresh, empty connection; the original
connection's transaction — the one holding the UPDATE — is rolled back
when the function returns, and the stored row is durably unchanged.
Only the insert branch (no existing row) runs and commits on the same
connection and so persists. -/
def save_checkpoint (table : List CheckpointRow) (repo_name commit_hash : String)
    (total_time : Int) : List CheckpointRow :=
  if table.any fun r => r.repo_name = repo_name then
    table
  else table ++ [{ repo_name := repo_name, last_commit := commit_hash, total_time := total_time }]

/-- The `while True: try UPDATE; break except: print` retry loop inside
`save_checkpoint` (index.py:123-134), run on `fuel` iterations against a
failure trace: `fails n = true` means the n-th UPDATE attempt raises.
Returns the attempt index on which the loop breaks, or `none` when
`fuel` iterations all fail. -/
def retryLoop (fails : Nat → Bool) : Nat → Nat → Option Nat
  | 0, _ => none
  | fuel + 1, attempt =>
      if fails attempt then retryLoop fails fuel (attempt + 1) else some attempt

/-- The mining state threaded through the per-commit loop of
`process_commits` (index.py:233-243): the rows appended to
`commit_analysis`, the checkpoint table, the chronological trace of
`save_checkpoint` calls, and the `processed_commits` counter. -/
structure RepoRunState where
  db : List (MatchRecord × Nat)
  checkpoint : List CheckpointRow
  ckptTrace : List (String × String)
  processed_commits : Nat
deriving Repr, DecidableEq

/-- The body of the per-commit loop (index.py:233-243): scan the commit,
append a row numbered `processed_commits + 1` on a match, increment the
counter, and checkpoint the commit hash (the clock gives the elapsed
time recorded at each step). -/
def process_one_commit (keywords : List String) (repo_name : String)
    (clock : Nat → Int) (st : RepoRunState) (commit : Commit) : RepoRunState :=
  let result := process_modified_files keywords commit.modified_files commit
  let db2 := match result with
    | some r => st.db ++ [(r, st.processed_commits + 1)]
    | none => st.db
  let processed2 := st.processed_commits + 1
  { db := db2,
    checkpoint := save_checkpoint st.checkpoint repo_name commit.hash (clock processed2),
    ckptTrace := st.ckptTrace ++ [(repo_name, commit.hash)],
    processed_commits := processed2 }

/-- The per-repository commit loop of `process_commits` (index.py:233-243):
fold the loop body over the commits yielded by `commit_generator`. -/
def process_commits_repo (keywords : List String) (repo_name : String)
    (clock : Nat → Int) (commits : List Commit) (last_commit : Option String)
    (st : RepoRunState) : RepoRunState :=
  (commit_generator commits last_commit).foldl (process_one_commit keywords repo_name clock) st

/-- The rows `process_commits` appends for a stream of commits when
`processed_commits` starts at `base`: each matching commit is stored with
`processed_commits + 1`, the 1-based ordinal of the commit among all
commits processed in the run, matched or not (index.py:238-241). -/
def dbRowsFrom (keywords : List String) (base : Nat) : List Commit → List (MatchRecord × Nat)
  | [] => []
  | c :: cs =>
    match process_modified_files keywords c.modified_files c with
    | some r => (r, base + 1) :: dbRowsFrom keywords (base + 1) cs
    | none => dbRowsFrom keywords (base + 1) cs

/-- At most one checkpoint row per repository name. -/
def atMostOnePerRepo (table : List CheckpointRow) : Prop :=
  (table.map fun r => r.repo_name).Nodup

/-- A diff file with one keyword-matching added line. -/
def exMatchFile : ModifiedFile :=
  { filename := "model.py", diff := "+ fix the bias term\n context line" }

/-- A diff file none of whose changed lines matches the keyword `bias`. -/
def exNoMatchFile : ModifiedFile :=
  { filename := "readme.md", diff := "+ nothing to see\n- a plain change" }

/-- A diff file with two keyword-matching changed lines. -/
def exDupFile : ModifiedFile :=
  { filename := "f.py", diff := "+ bias one\n- bias two" }

/-- A commit whose diff matches the keyword `bias`. -/
def exCommitMatch : Commit :=
  { hash := "h2", committer_date := "2024-01-02T00:00:00", author_name := "bob",
    msg := "fix things", modified_files := [exMatchFile],
    project_path := "https://github.com/acme/demo.git" }

/-- A commit whose diff does not match the keyword `bias`. -/
def exCommitNoMatch : Commit :=
  { hash := "h1", committer_date := "2024-01-01T00:00:00", author_name := "alice",
    msg := "fix the build", modified_files := [exNoMatchFile],
    project_path := "https://github.com/acme/demo.git" }

/-- A commit one of whose files has two keyword-matching lines. -/
def exCommitDup : Commit :=
  { hash := "h3", committer_date := "2024-01-03T00:00:00", author_name := "carol",
    msg := "tidy", modified_files := [exDupFile],
    project_path := "https://github.com/acme/demo.git" }

/-- The initial mining state of a fresh run. -/
def emptyState : RepoRunState :=
  { db := [], checkpoint := [], ckptTrace := [], processed_commits := 0 }

theorem genAux_found (size : Nat) (last : Option String) :
    ∀ (cs chunk : List Commit), genAux size last cs true chunk = chunk ++ cs := by
  intro cs
  induction cs with
  | nil => intro chunk; simp [genAux]
  | cons c rest ih =>
      intro chunk
      simp only [genAux, if_true]
      by_cases hlen : (chunk ++ [c]).length = size
      · simp [hlen, ih]
      · simp [hlen, ih]

theorem gen_skip_all (size : Nat) (h : String) :
    ∀ (cs : List Commit) (chunk : List Commit), (∀ c ∈ cs, c.hash ≠ h) →
      genAux size (some h) cs false chunk = chunk := by
  intro cs
  induction cs with
  | nil => intro chunk _; simp [genAux]
  | cons c rest ih =>
      intro chunk hne
      have hc : c.hash ≠ h := hne c (by simp)
      simp only [genAux]
      rw [if_neg (by simp), if_neg (fun hh => hc (Option.some.inj hh))]
      exact ih chunk fun d hd => hne d (by simp [hd])

theorem gen_resume (size : Nat) :
    ∀ (commits : List Commit) (k : Nat) (hk : k < commits.length),
      ((commits.map Commit.hash).Nodup) →
      genAux size (some ((commits.get ⟨k, hk⟩).hash)) commits false [] = commits.drop (k + 1) := by
  intro commits
  induction commits with
  | nil => intro k hk; exact absurd hk (by simp)
  | cons c rest ih =>
      intro k hk hnd
      match k with
      | 0 =>
          simp only [genAux, List.get]
          rw [if_neg (by simp), if_pos trivial]
          simpa using genAux_found size _ rest []
      | k + 1 =>
          have hk2 : k < rest.length := by simpa using Nat.lt_of_succ_lt_succ hk
          have hmem : (rest.get ⟨k, hk2⟩).hash ∈ rest.map Commit.hash :=
            List.mem_map.mpr ⟨rest.get ⟨k, hk2⟩, List.get_mem rest k hk2, rfl⟩
          have hnotmem : c.hash ∉ rest.map Commit.hash := by
            simp only [List.map_cons, List.nodup_cons] at hnd
            exact hnd.1
          have hne : c.hash ≠ (rest.get ⟨k, hk2⟩).hash := by
            intro he
            exact hnotmem (he ▸ hmem)
          simp only [genAux, List.get]
          rw [if_neg (by simp), if_neg (fun hh => hne (Option.some.inj hh))]
          have hnd2 : (rest.map Commit.hash).Nodup := by
            simp only [List.map_cons, List.nodup_cons] at hnd
            exact hnd.2
          simpa using ih k hk2 hnd2

/-- Whether any keyword of the list occurs in the lowercased message
(the per-category test of index.py:201-202). -/
def msgHasAny (msg : String) (kws : List String) : Bool :=
  kws.any fun keyword => strContains ((lowerList msg.data).asString) keyword

/-- C1: resume correctness of the commit stream: with the hash of the
k-th commit as resume hash, `commit_generator` yields exactly the commits
after position k in original order; with no resume hash it yields every
commit; and both facts hold for every chunk size, so the internal
chunking (size 200) has no observable effect. -/
theorem C1_resume_correctness (commits : List Commit) (k : Nat)
    (hnd : (commits.map Commit.hash).Nodup) (hk : k < commits.length) :
    (∀ size, commit_generator_sized size commits (some ((commits.get ⟨k, hk⟩).hash)) = commits.drop (k + 1))
    ∧ (∀ size, commit_generator_sized size commits none = commits)
    ∧ commit_generator commits (some ((commits.get ⟨k, hk⟩).hash)) = commits.drop (k + 1)
    ∧ commit_generator commits none = commits := by
  have hsome : ∀ size, commit_generator_sized size commits (some ((commits.get ⟨k, hk⟩).hash)) = commits.drop (k + 1) := by
    intro size
    unfold commit_generator_sized
    simpa using gen_resume size commits k hk hnd
  have hnone : ∀ size, commit_generator_sized size commits none = commits := by
    intro size
    unfold commit_generator_sized
    simpa using genAux_found size none commits []
  exact ⟨hsome, hnone, hsome CHUNK_SIZE, hnone CHUNK_SIZE⟩

/-- Witness for C1 at a concrete two-commit repository, resuming at the
first commit's hash. -/
theorem C1_resume_correctness_witness :
    commit_generator [exCommitNoMatch, exCommitMatch] (some exCommitNoMatch.hash) = [exCommitMatch]
    ∧ commit_generator [exCommitNoMatch, exCommitMatch] none = [exCommitNoMatch, exCommitMatch] := by
  have h := C1_resume_correctness [exCommitNoMatch, exCommitMatch] 0 (by decide) (by decide)
  exact ⟨h.2.2.1, h.2.2.2⟩

/-- C9: in the source, the checkpoint-update retry loop (index.py:123-134)
never exits when every UPDATE attempt fails: whatever iteration budget it
is observed for, it has not returned.  This contradicts the claim that
the save retries only a bounded number of times and always terminates. -/
theorem C9_retry_never_terminates :
    ∀ fuel attempt : Nat, retryLoop (fun _ => true) fuel attempt = none := by
  intro fuel
  induction fuel with
  | zero => intro attempt; rfl
  | succ n ih => intro attempt; simp [retryLoop, ih]

/-- A predicate holds at an element placed after a prefix on which it
fails everywhere, so `find?` returns that element. -/
theorem find_eq_some_of_first {α} (p : α → Bool) :
    ∀ (pre : List α) (x : α) (post : List α),
      p x = true → (∀ a ∈ pre, p a = false) →
      List.find? p (pre ++ x :: post) = some x := by
  intro pre
  induction pre with
  | nil => intro x post hx _; simp [List.find?, hx]
  | cons a as ih =>
      intro x post hx hpre
      have ha : p a = false := hpre a (by simp)
      simp only [List.cons_append, List.find?, ha]
      exact ih x post hx fun b hb => hpre b (by simp [hb])

/-- C4: the classifier is a pure total function of the message: its value
is always one of the five labels; it scans the four categories in their
fixed order and returns the name of the first one of whose keywords
occurs in the lowercased message, `Unknown` when none does; any message
containing `fix` case-insensitively (in particular one containing both
`fix` and `refactor`) classifies as Bug Fixing; and equal messages
classify equally. -/
theorem C4_classifier_first_match (msg : String) :
    (classify_commit_advanced msg ∈ ["Bug Fixing", "New Feature", "Enhancement", "Refactoring", "Unknown"])
    ∧ (∀ pre cat kws post, categories = pre ++ (cat, kws) :: post →
         msgHasAny msg kws = true → (∀ q ∈ pre, msgHasAny msg q.2 = false) →
         classify_commit_advanced msg = cat)
    ∧ ((∀ q ∈ categories, msgHasAny msg q.2 = false) → classify_commit_advanced msg = "Unknown")
    ∧ (strContains ((lowerList msg.data).asString) "fix" = true → classify_commit_advanced msg = "Bug Fixing")
    ∧ (∀ m2 : String, msg = m2 → classify_commit_advanced msg = classify_commit_advanced m2) := by
  have hfirst : ∀ pre cat kws post, categories = pre ++ (cat, kws) :: post →
      msgHasAny msg kws = true → (∀ q ∈ pre, msgHasAny msg q.2 = false) →
      classify_commit_advanced msg = cat := by
    intro pre cat kws post hcats hkws hpre
    have hfind : List.find?
        (fun p => p.2.any fun keyword => strContains ((lowerList msg.data).asString) keyword)
        (pre ++ (cat, kws) :: post) = some (cat, kws) :=
      find_eq_some_of_first
        (fun p => p.2.any fun keyword => strContains ((lowerList msg.data).asString) keyword)
        pre (cat, kws) post
        (by simpa [msgHasAny] using hkws)
        (fun q hq => by simpa [msgHasAny] using hpre q hq)
    simp only [classify_commit_advanced, hcats, hfind]
  have hmem : classify_commit_advanced msg ∈
      (["Bug Fixing", "New Feature", "Enhancement", "Refactoring", "Unknown"] : List String) := by
    rcases hf : List.find?
        (fun p => p.2.any fun keyword => strContains ((lowerList msg.data).asString) keyword)
        categories with _ | p
    · simp [classify_commit_advanced, hf]
    · have hp := List.mem_of_find?_eq_some hf
      simp only [categories, List.mem_cons, List.mem_singleton, List.not_mem_nil, or_false] at hp
      rcases hp with rfl | rfl | rfl | rfl <;> simp [classify_commit_advanced, hf]
  have hunk : (∀ q ∈ categories, msgHasAny msg q.2 = false) →
      classify_commit_advanced msg = "Unknown" := by
    intro h
    have hn : List.find?
        (fun p => p.2.any fun keyword => strContains ((lowerList msg.data).asString) keyword)
        categories = none :=
      List.find?_eq_none.mpr fun x hx => by
        have hx2 := h x hx
        simp only [msgHasAny] at hx2
        simp [hx2]
    simp only [classify_commit_advanced, hn]
  refine ⟨hmem, hfirst, hunk, ?_, ?_⟩
  · intro hf
    exact hfirst [] "Bug Fixing"
      ["fix", "bug", "error", "issue", "crash", "problem", "fatal", "defect", "patch"]
      [("New Feature", ["add", "feature", "implement", "new", "create", "introduce", "support"]),
       ("Enhancement", ["enhance", "improve", "optimize", "update", "upgrade", "performance", "boost", "refine"]),
       ("Refactoring", ["refactor", "clean", "restructure", "reorganize", "rewrite", "simplify", "redesign"])]
      rfl
      (by simp only [msgHasAny, List.any_eq_true]; exact ⟨"fix", by simp, hf⟩)
      (by simp)
  · intro m2 h
    rw [h]

/-- Unfolding of one loop iteration: effect on the three state components. -/
theorem process_one_commit_spec (keywords : List String) (repo_name : String)
    (clock : Nat → Int) (st : RepoRunState) (commit : Commit) :
    (process_one_commit keywords repo_name clock st commit).ckptTrace
      = st.ckptTrace ++ [(repo_name, commit.hash)]
    ∧ (process_one_commit keywords repo_name clock st commit).processed_commits
      = st.processed_commits + 1
    ∧ (process_one_commit keywords repo_name clock st commit).db
      = st.db ++ (match process_modified_files keywords commit.modified_files commit with
                  | some r => [(r, st.processed_commits + 1)]
                  | none => []) := by
  refine ⟨rfl, rfl, ?_⟩
  unfold process_one_commit
  rcases process_modified_files keywords commit.modified_files commit with _ | r <;> simp

/-- Unfolding of `dbRowsFrom` at a cons cell. -/
theorem dbRowsFrom_cons (keywords : List String) (base : Nat) (c : Commit) (cs : List Commit) :
    dbRowsFrom keywords base (c :: cs)
      = (match process_modified_files keywords c.modified_files c with
         | some r => [(r, base + 1)]
         | none => []) ++ dbRowsFrom keywords (base + 1) cs := by
  conv_lhs => rw [dbRowsFrom]
  rcases process_modified_files keywords c.modified_files c with _ | r <;> simp

/-- The per-repository loop: final trace, counter and appended rows, as a
function of the streamed commits. -/
theorem foldl_run_spec (keywords : List String) (repo_name : String) (clock : Nat → Int) :
    ∀ (cs : List Commit) (st : RepoRunState),
      (cs.foldl (process_one_commit keywords repo_name clock) st).ckptTrace
        = st.ckptTrace ++ cs.map (fun c => (repo_name, c.hash))
      ∧ (cs.foldl (process_one_commit keywords repo_name clock) st).processed_commits
        = st.processed_commits + cs.length
      ∧ (cs.foldl (process_one_commit keywords repo_name clock) st).db
        = st.db ++ dbRowsFrom keywords st.processed_commits cs := by
  intro cs
  induction cs with
  | nil => intro st; simp [dbRowsFrom]
  | cons c rest ih =>
      intro st
      have hstep := process_one_commit_spec keywords repo_name clock st c
      have hrec := ih (process_one_commit keywords repo_name clock st c)
      refine ⟨?_, ?_, ?_⟩
      · rw [List.foldl_cons, hrec.1, hstep.1]
        simp
      · rw [List.foldl_cons, hrec.2.1, hstep.2.1]
        simp only [List.length_cons]
        omega
      · rw [List.foldl_cons, hrec.2.2, hstep.2.2, hstep.2.1, dbRowsFrom_cons]
        simp [List.append_assoc]

/-- Each row produced for a stream carries `base + j + 1` where `j` is the
0-based stream position of the matching commit. -/
theorem dbRowsFrom_spec (keywords : List String) :
    ∀ (S : List Commit) (base : Nat) (rn : MatchRecord × Nat), rn ∈ dbRowsFrom keywords base S →
      ∃ j, ∃ hj : j < S.length, rn.2 = base + j + 1
        ∧ process_modified_files keywords (S.get ⟨j, hj⟩).modified_files (S.get ⟨j, hj⟩) = some rn.1 := by
  intro S
  induction S with
  | nil => intro base rn h; simp [dbRowsFrom] at h
  | cons c rest ih =>
      intro base rn h
      unfold dbRowsFrom at h
      rcases hpm : process_modified_files keywords c.modified_files c with _ | r
      · rw [hpm] at h
        obtain ⟨j, hj, he, hr⟩ := ih (base + 1) rn h
        exact ⟨j + 1, by simpa using Nat.succ_lt_succ hj, by omega, by simpa using hr⟩
      · rw [hpm] at h
        rcases List.mem_cons.mp h with hc | hmem
        · refine ⟨0, by simp, ?_, ?_⟩
          · rw [hc]
          · rw [hc]
            simpa using hpm
        · obtain ⟨j, hj, he, hr⟩ := ih (base + 1) rn hmem
          exact ⟨j + 1, by simpa using Nat.succ_lt_succ hj, by omega, by simpa using hr⟩

/-- C2 as stated is false: in a run over a non-matching commit followed by
a matching one, the single persisted row (the repository's first match)
is stored with `commit_number` 2 — the ordinal of the commit among all
processed commits — not 1, the count of matching commits so far. -/
theorem C2_counterexample :
    (process_commits_repo ["bias"] "demo" (fun _ => 0) [exCommitNoMatch, exCommitMatch] none emptyState).db.map Prod.snd = [2]
    ∧ ((process_commits_repo ["bias"] "demo" (fun _ => 0) [exCommitNoMatch, exCommitMatch] none emptyState).db.length = 1) := by
  constructor <;> decide

/-- C2 amended: every persisted row's `commit_number` is
`processed_commits + 1` at the time of the match, i.e. the 1-based
ordinal of the matching commit among all commits processed in the run,
matched or not. -/
theorem C2_commit_number_is_stream_ordinal (keywords : List String) (repo_name : String)
    (clock : Nat → Int) (commits : List Commit) (last_commit : Option String) (st : RepoRunState) :
    (process_commits_repo keywords repo_name clock commits last_commit st).db
      = st.db ++ dbRowsFrom keywords st.processed_commits (commit_generator commits last_commit)
    ∧ (∀ S : List Commit, ∀ base : Nat, ∀ rn : MatchRecord × Nat, rn ∈ dbRowsFrom keywords base S →
        ∃ j, ∃ hj : j < S.length, rn.2 = base + j + 1
          ∧ process_modified_files keywords (S.get ⟨j, hj⟩).modified_files (S.get ⟨j, hj⟩) = some rn.1) :=
  ⟨(foldl_run_spec keywords repo_name clock (commit_generator commits last_commit) st).2.2,
   fun S base rn h => dbRowsFrom_spec keywords S base rn h⟩

/-- Once some row for the repository exists, every further iteration of
the per-commit loop leaves the durable checkpoint table unchanged: each
save takes the update branch, whose transaction is rolled back. -/
theorem foldl_checkpoint_frozen (keywords : List String) (repo_name : String) (clock : Nat → Int) :
    ∀ (cs : List Commit) (st : RepoRunState),
      (st.checkpoint.any fun r => r.repo_name = repo_name) = true →
      (cs.foldl (process_one_commit keywords repo_name clock) st).checkpoint = st.checkpoint := by
  intro cs
  induction cs with
  | nil => intro st _; rfl
  | cons c rest ih =>
      intro st hany
      have h1 : (process_one_commit keywords repo_name clock st c).checkpoint
          = save_checkpoint st.checkpoint repo_name c.hash (clock (st.processed_commits + 1)) := rfl
      have hfroz : save_checkpoint st.checkpoint repo_name c.hash
          (clock (st.processed_commits + 1)) = st.checkpoint := by
        unfold save_checkpoint
        rw [if_pos hany]
      rw [List.foldl_cons,
          ih (process_one_commit keywords repo_name clock st c) (by rw [h1, hfroz]; exact hany),
          h1, hfroz]

/-- C3 fails in the program: the durable checkpoint for a repository is
inserted on its first processed commit and never advances afterwards.
Every later save takes the update branch, whose UPDATE runs on the
original connection's cursor while `conn` is rebound (index.py:125), so
the final commit (index.py:141) commits a fresh, empty connection and
the update is rolled back; whatever the stream holds beyond its first
commit, the stored row keeps the first commit's hash. -/
theorem C3_checkpoint_frozen (keywords : List String) (repo_name : String)
    (clock : Nat → Int) (commits : List Commit) (last_commit : Option String)
    (st : RepoRunState)
    (hno : (st.checkpoint.any fun r => r.repo_name = repo_name) = false) :
    ∀ (c : Commit) (rest : List Commit), commit_generator commits last_commit = c :: rest →
      (process_commits_repo keywords repo_name clock commits last_commit st).checkpoint
        = st.checkpoint ++ [{ repo_name := repo_name, last_commit := c.hash,
                              total_time := clock (st.processed_commits + 1) }] := by
  intro c rest hS
  unfold process_commits_repo
  rw [hS, List.foldl_cons]
  have h1 : (process_one_commit keywords repo_name clock st c).checkpoint
      = save_checkpoint st.checkpoint repo_name c.hash (clock (st.processed_commits + 1)) := rfl
  have hstep : (process_one_commit keywords repo_name clock st c).checkpoint
      = st.checkpoint ++ [{ repo_name := repo_name, last_commit := c.hash,
                            total_time := clock (st.processed_commits + 1) }] := by
    rw [h1]
    unfold save_checkpoint
    rw [if_neg (by simp [hno])]
  rw [foldl_checkpoint_frozen keywords repo_name clock rest
        (process_one_commit keywords repo_name clock st c) (by rw [hstep]; simp),
      hstep]

/-- Witness for C3 at the concrete two-commit run: after processing both
commits the durable checkpoint still reads the first commit's hash,
though the second commit's hash differs. -/
theorem C3_checkpoint_frozen_witness :
    (process_commits_repo ["bias"] "demo" (fun n => (n : Int)) [exCommitNoMatch, exCommitMatch]
        none emptyState).checkpoint
      = [{ repo_name := "demo", last_commit := "h1", total_time := 1 }]
    ∧ exCommitNoMatch.hash ≠ exCommitMatch.hash := by
  have h := C3_checkpoint_frozen ["bias"] "demo" (fun n => (n : Int))
    [exCommitNoMatch, exCommitMatch] none emptyState (by decide)
    exCommitNoMatch [exCommitMatch] (by decide)
  exact ⟨h.trans (by decide), by decide⟩

/-- Saving a checkpoint preserves the one-row-per-repository invariant. -/
theorem save_checkpoint_atMostOne (table : List CheckpointRow) (repo hash : String) (t : Int)
    (h : atMostOnePerRepo table) : atMostOnePerRepo (save_checkpoint table repo hash t) := by
  unfold atMostOnePerRepo save_checkpoint
  by_cases hex : (table.any fun r => r.repo_name = repo) = true
  · rw [if_pos hex]
    exact h
  · rw [if_neg hex]
    have hnotin : repo ∉ table.map fun r => r.repo_name := by
      intro hmem
      obtain ⟨r, hr, he⟩ := List.mem_map.mp hmem
      exact hex (List.any_eq_true.mpr ⟨r, hr, by simp [he]⟩)
    simp only [List.map_append, List.map_cons, List.map_nil]
    rw [List.nodup_append]
    exact ⟨h, List.nodup_singleton _, by simpa [List.disjoint_singleton] using hnotin⟩

/-- C5: what `save_checkpoint` durably does.  The insert branch persists a
fresh row when none exists for the repository, and any sequence of saves
starting from a table with at most one row per repository (in
particular the empty table) keeps at most one row per repository; but
when a row already exists the table is durably unchanged — the UPDATE
runs on the original connection's cursor while `conn` has been rebound
(index.py:125), so the final commit (index.py:141) commits the fresh,
empty connection and the update is rolled back — refuting the claim's
update-in-place clause. -/
theorem C5_checkpoint_single_row (table : List CheckpointRow)
    (ops : List (String × String × Int)) (h : atMostOnePerRepo table) :
    atMostOnePerRepo (ops.foldl (fun t op => save_checkpoint t op.1 op.2.1 op.2.2) table)
    ∧ (∀ repo hash t, (table.any fun r => r.repo_name = repo) = false →
        save_checkpoint table repo hash t
          = table ++ [{ repo_name := repo, last_commit := hash, total_time := t }])
    ∧ (∀ repo hash t, (table.any fun r => r.repo_name = repo) = true →
        save_checkpoint table repo hash t = table) := by
  refine ⟨?_, ?_, ?_⟩
  · induction ops generalizing table with
    | nil => exact h
    | cons op rest ih =>
        exact ih (save_checkpoint table op.1 op.2.1 op.2.2)
          (save_checkpoint_atMostOne table op.1 op.2.1 op.2.2 h)
  · intro repo hash t hex
    unfold save_checkpoint
    rw [if_neg (by simp [hex])]
  · intro repo hash t hex
    unfold save_checkpoint
    rw [if_pos hex]

/-- Witness for C5: saves from the empty table keep one row per
repository, and a save on an existing row leaves it exactly as it was —
the update to `h2` never lands. -/
theorem C5_checkpoint_single_row_witness :
    atMostOnePerRepo
      ([("alpha", "a1", (0 : Int)), ("beta", "b1", 1), ("alpha", "a2", 2)].foldl
        (fun t op => save_checkpoint t op.1 op.2.1 op.2.2) [])
    ∧ save_checkpoint [{ repo_name := "demo", last_commit := "h1", total_time := 0 }] "demo" "h2" 1
        = [{ repo_name := "demo", last_commit := "h1", total_time := 0 }] := by
  have h1 := C5_checkpoint_single_row [] [("alpha", "a1", 0), ("beta", "b1", 1), ("alpha", "a2", 2)]
    (by simp [atMostOnePerRepo])
  have h2 := C5_checkpoint_single_row
    [{ repo_name := "demo", last_commit := "h1", total_time := 0 }] []
    (by simp [atMostOnePerRepo])
  exact ⟨h1.1, h2.2.2 "demo" "h2" 1 (by decide)⟩

/-- A keyword returned by `lineHit` comes from the keyword list. -/
theorem lineHit_mem (keywords : List String) (line kw : String)
    (h : lineHit keywords line = some kw) : kw ∈ keywords := by
  unfold lineHit at h
  by_cases hs : (strStartsWith line "+" || strStartsWith line "-") = true
  · rw [if_pos hs] at h
    exact List.mem_of_find?_eq_some h
  · rw [if_neg hs] at h
    exact absurd h (by simp)

/-- Inserting a keyword preserves freedom from duplicates. -/
theorem insertKeyword_nodup (s : List String) (kw : String) (h : s.Nodup) :
    (insertKeyword s kw).Nodup := by
  unfold insertKeyword
  by_cases hm : kw ∈ s
  · rw [if_pos hm]; exact h
  · rw [if_neg hm]
    rw [List.nodup_append]
    exact ⟨h, List.nodup_singleton _, by simpa [List.disjoint_singleton] using hm⟩

/-- Membership after `insertKeyword`. -/
theorem insertKeyword_mem (s : List String) (kw x : String)
    (h : x ∈ insertKeyword s kw) : x ∈ s ∨ x = kw := by
  unfold insertKeyword at h
  by_cases hm : kw ∈ s
  · rw [if_pos hm] at h; exact Or.inl h
  · rw [if_neg hm] at h
    rcases List.mem_append.mp h with h1 | h1
    · exact Or.inl h1
    · exact Or.inr (by simpa using h1)

/-- Scanning the lines of one file: `affected_files` gains the file name
once per hit line, `found_keywords` stays duplicate-free and only ever
holds keywords of the active list. -/
theorem scanLines_spec (keywords : List String) (file : ModifiedFile) :
    ∀ (lines : List String) (r : MatchRecord),
      (lines.foldl (scanLineStep keywords file) r).affected_files
        = r.affected_files ++ (lines.filterMap fun line => (lineHit keywords line).map fun _ => file.filename)
      ∧ (r.found_keywords.Nodup → (lines.foldl (scanLineStep keywords file) r).found_keywords.Nodup)
      ∧ (∀ x ∈ (lines.foldl (scanLineStep keywords file) r).found_keywords,
          x ∈ r.found_keywords ∨ x ∈ keywords) := by
  intro lines
  induction lines with
  | nil => intro r; exact ⟨by simp, fun h => h, fun x hx => Or.inl hx⟩
  | cons line rest ih =>
      intro r
      rcases hl : lineHit keywords line with _ | kw
      · have hstep : scanLineStep keywords file r line = r := by
          unfold scanLineStep
          rw [hl]
        rw [List.foldl_cons, hstep]
        obtain ⟨h1, h2, h3⟩ := ih r
        refine ⟨?_, h2, h3⟩
        rw [h1]
        simp [List.filterMap_cons, hl]
      · have hstep : scanLineStep keywords file r line =
            { r with affected_files := r.affected_files ++ [file.filename],
                     found_keywords := insertKeyword r.found_keywords kw } := by
          unfold scanLineStep
          rw [hl]
        rw [List.foldl_cons, hstep]
        obtain ⟨h1, h2, h3⟩ := ih { r with affected_files := r.affected_files ++ [file.filename],
                                            found_keywords := insertKeyword r.found_keywords kw }
        refine ⟨?_, ?_, ?_⟩
        · rw [h1]
          simp [List.filterMap_cons, hl, List.append_assoc]
        · intro hnd
          exact h2 (insertKeyword_nodup r.found_keywords kw hnd)
        · intro x hx
          rcases h3 x hx with hx1 | hx1
          · rcases insertKeyword_mem r.found_keywords kw x hx1 with hx2 | hx2
            · exact Or.inl hx2
            · exact Or.inr (hx2 ▸ lineHit_mem keywords line kw hl)
          · exact Or.inr hx1

/-- Scanning all files: `affected_files` accumulates one entry per hit
line of each file; `found_keywords` stays duplicate-free and within the
active keyword list. -/
theorem scanAll_spec (keywords : List String) :
    ∀ (files : List ModifiedFile) (r : MatchRecord),
      (scanAll keywords files r).affected_files
        = r.affected_files ++ (files.flatMap fun f =>
            (splitlines f.diff).filterMap fun line => (lineHit keywords line).map fun _ => f.filename)
      ∧ (r.found_keywords.Nodup → (scanAll keywords files r).found_keywords.Nodup)
      ∧ (∀ x ∈ (scanAll keywords files r).found_keywords, x ∈ r.found_keywords ∨ x ∈ keywords) := by
  intro files
  induction files with
  | nil => intro r; exact ⟨by simp [scanAll], fun h => h, fun x hx => Or.inl hx⟩
  | cons f rest ih =>
      intro r
      have hstep := scanLines_spec keywords f (splitlines f.diff) r
      have hfold : scanAll keywords (f :: rest) r
          = scanAll keywords rest ((splitlines f.diff).foldl (scanLineStep keywords f) r) := by
        unfold scanAll
        rw [List.foldl_cons]
      obtain ⟨h1, h2, h3⟩ := ih ((splitlines f.diff).foldl (scanLineStep keywords f) r)
      rw [hfold]
      refine ⟨?_, ?_, ?_⟩
      · rw [h1, hstep.1]
        simp [List.append_assoc]
      · intro hnd
        exact h2 (hstep.2.1 hnd)
      · intro x hx
        rcases h3 x hx with hx1 | hx1
        · rcases hstep.2.2 x hx1 with hx2 | hx2
          · exact Or.inl hx2
          · exact Or.inr hx2
        · exact Or.inr hx1

/-- C6: a commit none of whose added or removed diff lines matches any
active keyword yields no record — whatever its message says — and the
orchestrator appends no row to the result store for it. -/
theorem C6_no_match (keywords : List String) (commit : Commit)
    (h : ∀ f ∈ commit.modified_files, ∀ line ∈ splitlines f.diff,
        (strStartsWith line "+" || strStartsWith line "-") = true →
        ∀ kw ∈ keywords, reSearchWB kw line = false) :
    (∀ msg2 : String,
        process_modified_files keywords commit.modified_files { commit with msg := msg2 } = none)
    ∧ process_modified_files keywords commit.modified_files commit = none
    ∧ (∀ (repo_name : String) (clock : Nat → Int) (st : RepoRunState),
        (process_one_commit keywords repo_name clock st commit).db = st.db) := by
  have hhit : ∀ f ∈ commit.modified_files, ∀ line ∈ splitlines f.diff,
      lineHit keywords line = none := by
    intro f hf line hline
    unfold lineHit
    by_cases hs : (strStartsWith line "+" || strStartsWith line "-") = true
    · rw [if_pos hs]
      exact List.find?_eq_none.mpr fun kw hkw => by simp [h f hf line hline hs kw hkw]
    · rw [if_neg hs]
  have hempty : ∀ r : MatchRecord, r.affected_files = [] →
      (scanAll keywords commit.modified_files r).affected_files = [] := by
    intro r hr
    rw [(scanAll_spec keywords commit.modified_files r).1, hr]
    simp only [List.nil_append]
    apply List.eq_nil_iff_forall_not_mem.mpr
    intro x hx
    obtain ⟨f, hf, hx2⟩ := List.mem_flatMap.mp hx
    obtain ⟨line, hline, hx3⟩ := List.mem_filterMap.mp hx2
    rw [hhit f hf line hline] at hx3
    exact absurd hx3 (by simp)
  have hnone : ∀ c2 : Commit, process_modified_files keywords commit.modified_files c2 = none := by
    intro c2
    unfold process_modified_files
    rw [if_neg (by simpa using hempty (initRecord c2) rfl)]
  refine ⟨fun msg2 => hnone _, hnone _, ?_⟩
  intro repo_name clock st
  unfold process_one_commit
  rw [hnone commit]

/-- Witness for C6: the concrete non-matching commit produces no record
and leaves the result store untouched. -/
theorem C6_no_match_witness :
    process_modified_files ["bias"] exCommitNoMatch.modified_files exCommitNoMatch = none
    ∧ (process_one_commit ["bias"] "demo" (fun _ => 0) emptyState exCommitNoMatch).db = emptyState.db := by
  have h := C6_no_match ["bias"] exCommitNoMatch (by decide)
  exact ⟨h.2.1, h.2.2 "demo" (fun _ => 0) emptyState⟩

/-- C7: keyword matching on diff lines is word-bounded and
case-insensitive — `bias` hits `- fix the bias term` but not
`+ unbiased estimator` — and a line that hits contributes exactly one
keyword: the first matching one, recorded together with the file name. -/
theorem C7_word_boundary (keywords : List String) (line kw : String)
    (h : lineHit keywords line = some kw) :
    reSearchWB "bias" "- fix the bias term" = true
    ∧ reSearchWB "bias" "+ unbiased estimator" = false
    ∧ (strStartsWith line "+" || strStartsWith line "-") = true
    ∧ reSearchWB kw line = true
    ∧ (∃ pre post, keywords = pre ++ kw :: post ∧ ∀ k ∈ pre, reSearchWB k line = false)
    ∧ (∀ (file : ModifiedFile) (r : MatchRecord),
        (scanLineStep keywords file r line).affected_files = r.affected_files ++ [file.filename]
        ∧ (scanLineStep keywords file r line).found_keywords = insertKeyword r.found_keywords kw) := by
  have hs : (strStartsWith line "+" || strStartsWith line "-") = true := by
    by_contra hns
    rw [lineHit, if_neg hns] at h
    exact absurd h (by simp)
  have hfind : keywords.find? (fun keyword => reSearchWB keyword line) = some kw := by
    rw [lineHit, if_pos hs] at h
    exact h
  obtain ⟨hp, pre, post, hdec, hpre⟩ := List.find?_eq_some.mp hfind
  refine ⟨by decide, by decide, hs, hp, ⟨pre, post, hdec, ?_⟩, ?_⟩
  · intro k hk
    have := hpre k hk
    simpa using this
  · intro file r
    constructor <;> · unfold scanLineStep; rw [h]

/-- Witness for C7 at the spec's two example lines, with a keyword list
whose first element does not match. -/
theorem C7_word_boundary_witness :
    reSearchWB "bias" "- fix the bias term" = true
    ∧ reSearchWB "bias" "+ unbiased estimator" = false
    ∧ (∃ pre post, ["nope", "bias"] = pre ++ "bias" :: post
        ∧ ∀ k ∈ pre, reSearchWB k "- fix the bias term" = false) := by
  have h := C7_word_boundary ["nope", "bias"] "- fix the bias term" "bias" (by decide)
  exact ⟨h.1, h.2.1, h.2.2.2.2.1⟩

/-- C8 as stated is false: a file with two keyword-matching lines is
recorded twice in `affected_files`, which is a list built with `append`,
not a set. -/
theorem C8_counterexample :
    (process_modified_files ["bias"] [exDupFile] exCommitDup).map (fun r => r.affected_files)
      = some ["f.py", "f.py"]
    ∧ ¬(["f.py", "f.py"] : List String).Nodup := by
  constructor <;> decide

/-- C8 amended: in every produced record, `found_keywords` is a set
(duplicate-free, drawn from the active keywords), while
`affected_files` is a list with one entry — the file name — per
keyword-matching line, so a file with several matching lines occurs
several times. -/
theorem C8_record_shape (keywords : List String) (files : List ModifiedFile)
    (commit : Commit) (r : MatchRecord)
    (h : process_modified_files keywords files commit = some r) :
    r.found_keywords.Nodup
    ∧ (∀ x ∈ r.found_keywords, x ∈ keywords)
    ∧ r.affected_files
        = files.flatMap fun f => (splitlines f.diff).filterMap fun line =>
            (lineHit keywords line).map fun _ => f.filename := by
  have hr : r = scanAll keywords files (initRecord commit) := by
    unfold process_modified_files at h
    by_cases hc : (scanAll keywords files (initRecord commit)).affected_files ≠ []
    · rw [if_pos hc] at h
      exact (Option.some.inj h).symm
    · rw [if_neg hc] at h
      exact absurd h (by simp)
  have hspec := scanAll_spec keywords files (initRecord commit)
  refine ⟨?_, ?_, ?_⟩
  · rw [hr]
    exact hspec.2.1 (by simp [initRecord])
  · intro x hx
    rw [hr] at hx
    rcases hspec.2.2 x hx with hx1 | hx1
    · exact absurd hx1 (by simp [initRecord])
    · exact hx1
  · rw [hr, hspec.1]
    simp [initRecord]

/-- Witness for C8 at the two-hit file: the produced record repeats the
file name and carries the keyword once. -/
theorem C8_record_shape_witness :
    ∃ r : MatchRecord, process_modified_files ["bias"] [exDupFile] exCommitDup = some r
    ∧ r.found_keywords.Nodup
    ∧ (∀ x ∈ r.found_keywords, x ∈ (["bias"] : List String)) := by
  rcases hr : process_modified_files ["bias"] [exDupFile] exCommitDup with _ | r
  · exact absurd hr (by decide)
  · have h := C8_record_shape ["bias"] [exDupFile] exCommitDup r hr
    exact ⟨r, rfl, h.1, h.2.1⟩

/-- When the head does not start a backslash-star pair, `replaceEscStar`
keeps it. -/
theorem replaceEscStar_cons (c : Char) (rest : List Char)
    (h : ∀ rest2, c = '\\' → rest = '*' :: rest2 → False) :
    replaceEscStar (c :: rest) = c :: replaceEscStar rest := by
  rw [replaceEscStar.eq_def]
  split
  · rename_i r heq
    injection heq with h1 h2
    exact absurd trivial fun _ => h r h1 h2
  · rename_i c2 rest2 hno heq
    injection heq with h1 h2
    rw [h1, h2]
  · rename_i heq
    exact absurd heq (by simp)

/-- Escaping is the identity on words with no special character. -/
theorem reEscape_of_no_special : ∀ l : List Char,
    (∀ c ∈ l, isReSpecial c = false) → reEscape l = l := by
  intro l
  induction l with
  | nil => intro _; rfl
  | cons c rest ih =>
      intro h
      have hc : isReSpecial c = false := h c (by simp)
      unfold reEscape
      rw [if_neg (by simp [hc]), ih fun d hd => h d (by simp [hd])]

/-- Star replacement is the identity on words with no backslash. -/
theorem replaceEscStar_of_no_backslash : ∀ l : List Char,
    (∀ c ∈ l, c ≠ '\\') → replaceEscStar l = l := by
  intro l
  induction l with
  | nil => intro _; rfl
  | cons c rest ih =>
      intro h
      rw [replaceEscStar_cons c rest (fun r2 hc _ => h c (by simp) hc),
          ih fun d hd => h d (by simp [hd])]

/-- Escaping adds one backslash per special character. -/
theorem reEscape_length : ∀ l : List Char,
    (reEscape l).length = l.length + l.countP (fun c => isReSpecial c) := by
  intro l
  induction l with
  | nil => rfl
  | cons c rest ih =>
      unfold reEscape
      by_cases hc : isReSpecial c = true
      · rw [if_pos (by simp [hc])]
        simp only [List.length_cons, List.countP_cons, hc, if_pos]
        simp [ih]
        omega
      · rw [if_neg (by simp [hc])]
        simp only [List.length_cons, List.countP_cons]
        have hc2 : isReSpecial c = false := by
          rcases Bool.eq_false_or_eq_true (isReSpecial c) with hb | hb
          · exact absurd hb hc
          · exact hb
        simp [ih, hc2]
        omega

/-- Star replacement never changes the length. -/
theorem replaceEscStar_length : ∀ l : List Char, (replaceEscStar l).length = l.length := by
  intro l
  induction l using replaceEscStar.induct with
  | case1 rest ih =>
      have : replaceEscStar ('\\' :: '*' :: rest) = '.' :: '*' :: replaceEscStar rest := by
        rw [replaceEscStar]
      rw [this]
      simp [ih]
  | case2 c rest hno ih =>
      rw [replaceEscStar_cons c rest hno]
      simp [ih]
  | case3 => rfl

/-- Every keyword the reader produces is the compiled form of a stripped
non-blank, non-comment line of the keyword file. -/
theorem read_keywords_mem : ∀ (lines : List String) (kw : String),
    kw ∈ read_keywords_from_file lines →
    ∃ line ∈ lines, ((pyStrip line.data).asString ≠ ""
      ∧ strStartsWith ((pyStrip line.data).asString) "#" = false
      ∧ kw = compileKeyword ((pyStrip line.data).asString)) := by
  intro lines
  induction lines with
  | nil => intro kw h; exact absurd h (by simp [read_keywords_from_file])
  | cons line rest ih =>
      intro kw h
      simp only [read_keywords_from_file, List.foldr_cons] at h
      by_cases hc : ((pyStrip line.data).asString ≠ ""
          && !strStartsWith ((pyStrip line.data).asString) "#") = true
      · rw [if_pos hc] at h
        rcases List.mem_cons.mp h with h1 | h1
        · simp only [Bool.and_eq_true, decide_eq_true_eq, Bool.not_eq_true'] at hc
          exact ⟨line, by simp, hc.1, hc.2, h1⟩
        · obtain ⟨l2, hl2, hp⟩ := ih kw h1
          exact ⟨l2, by simp [hl2], hp⟩
      · rw [if_neg hc] at h
        obtain ⟨l2, hl2, hp⟩ := ih kw h
        exact ⟨l2, by simp [hl2], hp⟩

/-- The record a commit produces is the scan of its files from the
initial record. -/
theorem process_some_eq (keywords : List String) (files : List ModifiedFile)
    (commit : Commit) (r : MatchRecord)
    (h : process_modified_files keywords files commit = some r) :
    r = scanAll keywords files (initRecord commit) := by
  unfold process_modified_files at h
  by_cases hc : (scanAll keywords files (initRecord commit)).affected_files ≠ []
  · rw [if_pos hc] at h
    exact (Option.some.inj h).symm
  · rw [if_neg hc] at h
    exact absurd h (by simp)

/-- Keywords recorded in a produced record come from the active list. -/
theorem process_found_sub (keywords : List String) (files : List ModifiedFile)
    (commit : Commit) (r : MatchRecord)
    (h : process_modified_files keywords files commit = some r) :
    ∀ x ∈ r.found_keywords, x ∈ keywords := by
  intro x hx
  rw [process_some_eq keywords files commit r h] at hx
  rcases (scanAll_spec keywords files (initRecord commit)).2.2 x hx with h1 | h1
  · exact absurd h1 (by simp [initRecord])
  · exact h1

/-- C10: keywords are stored in compiled form — the source literal with
every regex metacharacter backslash-escaped and `*` expanded to `.*` —
so `foo.bar` is recorded as `foo\.bar` and `a*b` as `a.*b`; a compiled
keyword equals its literal exactly when the literal has no
metacharacter; every keyword the reader loads is such a compiled form of
a line of the keyword file; and the keywords a record persists all come
from that loaded list. -/
theorem C10_compiled_keyword_forms :
    compileKeyword "foo.bar" = "foo\\.bar"
    ∧ compileKeyword "a*b" = "a.*b"
    ∧ (∀ lit : String, (∀ c ∈ lit.data, isReSpecial c = false) → compileKeyword lit = lit)
    ∧ (∀ lit : String, compileKeyword lit = lit → ∀ c ∈ lit.data, isReSpecial c = false)
    ∧ (∀ (lines : List String) (kw : String), kw ∈ read_keywords_from_file lines →
        ∃ line ∈ lines, kw = compileKeyword ((pyStrip line.data).asString))
    ∧ (∀ (keywords : List String) (files : List ModifiedFile) (commit : Commit) (r : MatchRecord),
        process_modified_files keywords files commit = some r →
        ∀ x ∈ r.found_keywords, x ∈ keywords) := by
  refine ⟨by decide, by decide, ?_, ?_, ?_, ?_⟩
  · intro lit h
    unfold compileKeyword
    rw [reEscape_of_no_special lit.data h,
        replaceEscStar_of_no_backslash lit.data fun c hc he => by
          have hcs := h c hc
          rw [he] at hcs
          simp [isReSpecial] at hcs]
    rfl
  · intro lit h
    have hlen : (replaceEscStar (reEscape lit.data)).length = lit.data.length := by
      have h2 := congrArg (fun s : String => s.data.length) h
      simpa [compileKeyword] using h2
    rw [replaceEscStar_length, reEscape_length] at hlen
    have hcount : lit.data.countP (fun c => isReSpecial c) = 0 := by omega
    intro c hc
    have h3 := List.countP_eq_zero.mp hcount c hc
    simpa using h3
  · intro lines kw h
    obtain ⟨line, hline, _, _, he⟩ := read_keywords_mem lines kw h
    exact ⟨line, hline, he⟩
  · exact process_found_sub

/-- Witness for C4 at a message containing both `fix` and `refactor`. -/
theorem C4_classifier_first_match_witness :
    classify_commit_advanced "Fix: refactor the parsing" = "Bug Fixing" :=
  (C4_classifier_first_match "Fix: refactor the parsing").2.2.2.1 (by decide)

/-- Witness for the amended C2 at a concrete two-commit run. -/
theorem C2_commit_number_is_stream_ordinal_witness :
    (process_commits_repo ["bias"] "demo" (fun _ => 0) [exCommitNoMatch, exCommitMatch] none emptyState).db
      = emptyState.db ++ dbRowsFrom ["bias"] emptyState.processed_commits
          (commit_generator [exCommitNoMatch, exCommitMatch] none) :=
  (C2_commit_number_is_stream_ordinal ["bias"] "demo" (fun _ => 0)
    [exCommitNoMatch, exCommitMatch] none emptyState).1

/-- Witness for C10: a metacharacter-free literal compiles to itself. -/
theorem C10_compiled_keyword_forms_witness :
    compileKeyword "fairness" = "fairness"
    ∧ compileKeyword "foo.bar" = "foo\\.bar" := by
  have h := C10_compiled_keyword_forms
  exact ⟨h.2.2.1 "fairness" (by decide), h.1⟩
